import Mathlib

/-!
Shallow embedding of `src/forth.rs` (a small Forth-like evaluator) and proofs
about the claims of its specification.

Conventions of the embedding:
* `Value = i32` is modelled as `Int` with explicit wrapping (`wrap32`) at the
  arithmetic operators, per two's-complement release semantics.
* The Rust `Vec<Value>` stack is modelled as `List Int` with the HEAD as the
  top of the stack (the end of the Rust vector).  The exposed `stack()`
  slice, oldest value first, is `List.reverse` of this representation.
* Fallible code returns the failure in an `Option Fail` component; `Fail`
  distinguishes the four `Error` values of the source from a Rust panic
  (`crash`, for the `unwrap`/`split_at` sites) and from fuel exhaustion of
  the embedding (`fuelOut`).  The evaluator recursion of the source is
  modelled with explicit fuel; we prove the results are stable in the fuel
  and that enough fuel always exists.
* Each function keeps the name of the Rust item it embeds where possible
  (`Forth.eval`, `evaluate_input`, `Operator.operate`, ...).
-/

/-- Embeds `struct Variable { word, definition, definitions_index }`
(src/forth.rs lines 39-44). -/
structure Variable where
  word : String
  definition : List String
  definitions_index : Nat
deriving DecidableEq

/-- Embeds `enum Error` (src/forth.rs lines 12-18). -/
inductive Error where
  | DivisionByZero
  | StackUnderflow
  | UnknownWord
  | InvalidWord
deriving DecidableEq

/-- Failure outcomes of the embedded evaluator: a source-level `Error`, a Rust
panic (`crash`), or exhaustion of the embedding's fuel (`fuelOut`). -/
inductive Fail where
  | err (e : Error)
  | crash
  | fuelOut
deriving DecidableEq

/-- Embeds `enum Operator` (src/forth.rs lines 20-29). -/
inductive Operator where
  | add
  | sub
  | mul
  | div
  | dup
  | drop
  | swap
  | over
deriving DecidableEq

/-- Embeds `enum InputValue` (src/forth.rs lines 31-37). -/
inductive InputValue where
  | Number (n : Int)
  | Op (op : Operator)
  | Definition
  | Var (v : Variable)
  | Void
deriving DecidableEq

/-- The working stack: `List Int`, head = top (= end of the Rust `Vec`). -/
abbrev Stack := List Int

/-- Embeds `struct Forth { stack, definitions }` (src/forth.rs lines 7-10). -/
structure Forth where
  stack : Stack
  definitions : List Variable
deriving DecidableEq

/-- Embeds `Forth::new` (src/forth.rs lines 47-52). -/
def Forth.new : Forth := ⟨[], []⟩

/-- ASCII model of Rust's `str::to_uppercase`. -/
def toUpperStr (s : String) : String := String.mk (s.toList.map Char.toUpper)

/-- Value of a list of decimal digit characters. -/
def digitsToNat (ds : List Char) : Nat :=
  ds.foldl (fun a c => a * 10 + (c.toNat - 48)) 0

/-- Model of `val.parse::<i32>()`: optional sign, one or more ASCII digits,
value within the `i32` range; anything else is a parse failure. -/
def parseI32 (s : String) : Option Int :=
  let p : Int × List Char :=
    match s.toList with
    | '+' :: rest => (1, rest)
    | '-' :: rest => (-1, rest)
    | cs => (1, cs)
  if p.2.isEmpty then none
  else if p.2.all Char.isDigit then
    let n : Int := p.1 * (digitsToNat p.2 : Int)
    if -2147483648 ≤ n ∧ n < 2147483648 then some n else none
  else none

/-- The operator table of `evaluate_input` (src/forth.rs lines 147-157). -/
def opOfString (val : String) : Option Operator :=
  match toUpperStr val with
  | "+" => some .add
  | "-" => some .sub
  | "*" => some .mul
  | "/" => some .div
  | "DUP" => some .dup
  | "DROP" => some .drop
  | "SWAP" => some .swap
  | "OVER" => some .over
  | _ => none

/-- Embeds `Forth::evaluate_input` (src/forth.rs lines 134-167): `:` first,
then user words (searching the visible definitions from the end), then
built-in operators, then numeric literals, else `Void`. -/
def evaluate_input (val : String) (definitions : List Variable) : InputValue :=
  if val = ":" then .Definition
  else
    match definitions.reverse.find? (fun x => x.word == toUpperStr val) with
    | some v => .Var v
    | none =>
      match opOfString val with
      | some op => .Op op
      | none =>
        match parseI32 val with
        | some n => .Number n
        | none => .Void

/-- Two's-complement wrap into the `i32` range. -/
def wrap32 (n : Int) : Int := (n + 2147483648) % 4294967296 - 2147483648

/-- Embeds `Operator::operate` (src/forth.rs lines 170-252).  Returns the
stack after the call together with the failure, if any; on failure the stack
component is the state the Rust `&mut Vec` was left in (for `/` by zero the
two operands are already popped). -/
def Operator.operate : Operator → Stack → Stack × Option Fail
  | .add, s =>
    if s.length < 2 then (s, some (.err .StackUnderflow))
    else match s with
      | a :: b :: rest => (wrap32 (a + b) :: rest, none)
      | _ => (s, some .crash)
  | .sub, s =>
    if s.length < 2 then (s, some (.err .StackUnderflow))
    else match s with
      | a :: b :: rest => (wrap32 (b - a) :: rest, none)
      | _ => (s, some .crash)
  | .mul, s =>
    if s.length < 2 then (s, some (.err .StackUnderflow))
    else match s with
      | a :: b :: rest => (wrap32 (b * a) :: rest, none)
      | _ => (s, some .crash)
  | .div, s =>
    if s.length < 2 then (s, some (.err .StackUnderflow))
    else match s with
      | a :: b :: rest =>
        if a = 0 then (rest, some (.err .DivisionByZero))
        else (wrap32 (Int.tdiv b a) :: rest, none)
      | _ => (s, some .crash)
  | .dup, s =>
    if s.length < 1 then (s, some (.err .StackUnderflow))
    else match s with
      | a :: rest => (a :: a :: rest, none)
      | _ => (s, some .crash)
  | .drop, s =>
    if s.length < 1 then (s, some (.err .StackUnderflow))
    else match s with
      | _ :: rest => (rest, none)
      | _ => (s, some .crash)
  | .swap, s =>
    if s.length < 2 then (s, some (.err .StackUnderflow))
    else match s with
      | a :: b :: rest => (b :: a :: rest, none)
      | _ => (s, some .crash)
  | .over, s =>
    if s.length < 2 then (s, some (.err .StackUnderflow))
    else match s with
      | a :: b :: rest => (b :: a :: b :: rest, none)
      | _ => (s, some .crash)

/-- The stack depth each operator requires before popping, per the
`stack.len() < n` guards of `Operator::operate`. -/
def requiredDepth : Operator → Nat
  | .add => 2
  | .sub => 2
  | .mul => 2
  | .div => 2
  | .dup => 1
  | .drop => 1
  | .swap => 2
  | .over => 2

/-- Membership in the `i32` value range. -/
def inRange32 (n : Int) : Prop := -2147483648 ≤ n ∧ n < 2147483648

instance (n : Int) : Decidable (inRange32 n) := by
  unfold inRange32; infer_instance

/-- The body-token window of a definition starting at index `i`:
`input.iter().skip(i+2).take_while(|x| x != ";")` (src/forth.rs lines 86-91). -/
def defnBody (input : List String) (i : Nat) : List String :=
  (input.drop (i + 2)).takeWhile (fun x => x != ";")

/-- The `InvalidWord` condition of the `Definition` branch
(src/forth.rs lines 92-100): no `;` anywhere in the token stream, or an
empty body, or a digit-led name. -/
def defnInvalid (input : List String) (i : Nat) : Prop :=
  input.contains ";" = false ∨ (defnBody input i).length < 1 ∨
    (match (input.getD (i + 1) "").toList with
     | c :: _ => c.isDigit
     | [] => false) = true

instance (input : List String) (i : Nat) : Decidable (defnInvalid input i) := by
  unfold defnInvalid; infer_instance

/-- The three evaluation modes of the source, used as the argument of the
single fuel-indexed interpreter `run`:
* `char i input window`: one call of `Forth::evaluate_character` at token
  index `i` with the given visible `definitions` window;
* `body j bodyToks snap`: the `while j < len` loop inside the
  `InputValue::Variable` branch, with dictionary visibility bound `snap`;
* `top i input`: the `while i < input.len()` loop of `Forth::eval`. -/
inductive Call where
  | char (i : Nat) (input : List String) (window : List Variable)
  | body (j : Nat) (bodyToks : List String) (snap : Nat)
  | top (i : Nat) (input : List String)

/-- The token index a call is currently at (used for the fuel-out result). -/
def Call.idx : Call → Nat
  | .char i _ _ => i
  | .body j _ _ => j
  | .top i _ => i

/-- One step of the evaluator, parametrised by the interpretation `recur` of
the recursive occurrences.  `runStep recur c stack defs` returns
`(i', stack', defs', fail?)`: the updated traversal index, working stack,
instance dictionary (`self.definitions`) and the failure, if any.

* `.char` embeds `Forth::evaluate_character` (src/forth.rs lines 71-133);
* `.body` embeds its `Variable` branch loop (lines 109-129), recomputing the
  visible window `defs.take snap` from the current dictionary on every
  iteration exactly as `self.definitions.clone().split_at(..).0` does, with
  `crash` when `split_at` would panic;
* `.top` embeds the loop of `Forth::eval` (lines 62-66), passing the full
  current dictionary as the window exactly as `self.definitions.clone()`
  does. -/
def runStep
    (recur : Call → Stack → List Variable →
      Nat × Stack × List Variable × Option Fail) :
    Call → Stack → List Variable → Nat × Stack × List Variable × Option Fail
  | .char i input window, stack, defs =>
    match input[i]? with
    | none => (i, stack, defs, some .crash)
    | some tok =>
      match evaluate_input tok window with
      | .Number n => (i, n :: stack, defs, none)
      | .Op op =>
        match op.operate stack with
        | (s', r) => (i, s', defs, r)
      | .Definition =>
        if defnInvalid input i then (i, stack, defs, some (.err .InvalidWord))
        else
          match input[i + 1]? with
          | none => (i, stack, defs, some .crash)
          | some definition_name =>
            (i + (defnBody input i).length + 2, stack,
              defs ++ [⟨toUpperStr definition_name, defnBody input i, defs.length⟩],
              none)
      | .Var v =>
        match recur (.body 0 v.definition v.definitions_index) stack defs with
        | (_, s', d', r) => (i, s', d', r)
      | .Void => (i, stack, defs, some (.err .UnknownWord))
  | .body j body snap, stack, defs =>
    if j < body.length then
      if defs.length < snap then (j, stack, defs, some .crash)
      else
        match recur (.char j body (defs.take snap)) stack defs with
        | (j', s', d', some f) => (j', s', d', some f)
        | (j', s', d', none) => recur (.body (j' + 1) body snap) s' d'
    else (j, stack, defs, none)
  | .top i input, stack, defs =>
    if i < input.length then
      match recur (.char i input defs) stack defs with
      | (i', s', d', some f) => (i', s', d', some f)
      | (i', s', d', none) => recur (.top (i' + 1) input) s' d'
    else (i, stack, defs, none)

/-- The fuel-indexed interpreter: iterate `runStep`, with a `fuelOut` result
when the fuel runs out. -/
def run : Nat → Call → Stack → List Variable →
    Nat × Stack × List Variable × Option Fail
  | 0, c, stack, defs => (c.idx, stack, defs, some .fuelOut)
  | fuel + 1, c, stack, defs => runStep (run fuel) c stack defs

/-- Character-level worker for `splitWhitespace`; `acc` holds the current
token's characters in reverse. -/
def splitWSAux : List Char → List Char → List String
  | [], acc => if acc.isEmpty then [] else [String.mk acc.reverse]
  | c :: cs, acc =>
    if c.isWhitespace then
      if acc.isEmpty then splitWSAux cs []
      else String.mk acc.reverse :: splitWSAux cs []
    else splitWSAux cs (c :: acc)

/-- Model of Rust's `str::split_whitespace`: maximal runs of non-whitespace
characters, empty tokens dropped. -/
def splitWhitespace (s : String) : List String := splitWSAux s.toList []

/-- Embeds `Forth::eval` (src/forth.rs lines 58-69): fresh empty working
stack, run the top loop, and commit the working stack over `self.stack` only
on success; the dictionary keeps whatever mutations happened either way. -/
def Forth.eval (fuel : Nat) (f : Forth) (input : String) : Forth × Option Fail :=
  let tokens := splitWhitespace input
  match run fuel (.top 0 tokens) [] f.definitions with
  | (_, s', d', none) => (⟨s', d'⟩, none)
  | (_, _, d', some fl) => (⟨f.stack, d'⟩, some fl)

/-- The exposed `Forth::stack()` view (oldest value first, src/forth.rs
lines 54-56). -/
def Forth.stackView (f : Forth) : List Int := f.stack.reverse

/-- The dictionary invariant of every reachable instance: each entry's
`definitions_index` is at most its own position (the source always records
the dictionary length at creation, which is the entry's position). -/
def GoodDefs (defs : List Variable) : Prop :=
  ∀ p (h : p < defs.length), (defs.get ⟨p, h⟩).definitions_index ≤ p

instance (defs : List Variable) : Decidable (GoodDefs defs) := by
  unfold GoodDefs; exact Nat.decidableBallLT _ _

/-- States reachable from `Forth::new` by any sequence of `eval` calls
(successful or not). -/
inductive Reachable : Forth → Prop where
  | base : Reachable Forth.new
  | step (f : Forth) (fuel : Nat) (input : String) :
      Reachable f → Reachable (Forth.eval fuel f input).1

/-- Side conditions under which an evaluator call cannot panic: the index the
loop passes to `evaluate_character` is in bounds and the visibility window is
a prefix of the current dictionary. -/
def CallOk (c : Call) (defs : List Variable) : Prop :=
  match c with
  | .char i input win => i < input.length ∧ ∃ w, w ≤ defs.length ∧ win = defs.take w
  | .body _ _ snap => snap ≤ defs.length
  | .top _ _ => True

/-- Every entry of a `take`-window of a `GoodDefs` dictionary has its
`definitions_index` strictly below the window's length. -/
theorem mem_take_idx_lt (defs : List Variable) (k : Nat) (v : Variable)
    (hg : GoodDefs defs) (hv : v ∈ defs.take k) :
    v.definitions_index < (defs.take k).length := by
  obtain ⟨p, hp, he⟩ := List.mem_iff_getElem.mp hv
  have hlen : (defs.take k).length = min k defs.length := List.length_take k defs
  have hpd : p < defs.length := by omega
  have hg2 := hg p hpd
  simp only [List.get_eq_getElem] at hg2
  simp only [List.getElem_take] at he
  rw [he] at hg2
  omega

/-- Appending an entry whose `definitions_index` is the current length
preserves the dictionary invariant. -/
theorem goodDefs_push (defs : List Variable) (w : String) (d : List String)
    (h : GoodDefs defs) : GoodDefs (defs ++ [⟨w, d, defs.length⟩]) := by
  intro p hp
  simp only [List.get_eq_getElem]
  simp only [List.length_append, List.length_cons, List.length_nil] at hp
  rcases Nat.lt_or_ge p defs.length with h1 | h1
  · rw [List.getElem_append_left h1]
    have := h p h1
    simpa [List.get_eq_getElem] using this
  · have hp2 : p = defs.length := by omega
    subst hp2
    rw [List.getElem_append_right (le_refl _)]
    simp

/-- The function `evaluate_character` never moves the traversal index backwards. -/
theorem run_idx_le (fuel : Nat) (i : Nat) (input : List String)
    (window : List Variable) (stack : Stack) (defs : List Variable) :
    i ≤ (run fuel (.char i input window) stack defs).1 := by
  cases fuel with
  | zero => simp [run, Call.idx]
  | succ fuel =>
    simp only [run, runStep]
    split
    · simp
    · split <;> try simp
      split
      · simp
      · split
        · simp
        · simp
          omega

/-- The dictionary is append-only: whatever the evaluator does, the incoming
dictionary is a prefix of the outgoing one. -/
theorem run_defs_extend (fuel : Nat) :
    ∀ (c : Call) (stack : Stack) (defs : List Variable),
      ∃ t, defs ++ t = (run fuel c stack defs).2.2.1 := by
  induction fuel with
  | zero => intro c stack defs; exact ⟨[], by simp [run]⟩
  | succ fuel ih =>
    intro c stack defs
    cases c with
    | char i input window =>
      simp only [run, runStep]
      split
      · exact ⟨[], by simp⟩
      · split
        · exact ⟨[], by simp⟩
        · exact ⟨[], by simp⟩
        · split
          · exact ⟨[], by simp⟩
          · split
            · exact ⟨[], by simp⟩
            · rename_i nm hname
              exact ⟨[⟨toUpperStr nm, defnBody input i, defs.length⟩], by simp⟩
        · rename_i v hin
          obtain ⟨t, ht⟩ := ih (.body 0 v.definition v.definitions_index) stack defs
          exact ⟨t, by simpa using ht⟩
        · exact ⟨[], by simp⟩
    | body j bodyToks snap =>
      simp only [run, runStep]
      split
      · split
        · exact ⟨[], by simp⟩
        · split
          · rename_i j' s' d' f hc
            obtain ⟨t, ht⟩ := ih (.char j bodyToks (defs.take snap)) stack defs
            rw [hc] at ht
            exact ⟨t, by simpa using ht⟩
          · rename_i j' s' d' hc
            obtain ⟨t, ht⟩ := ih (.char j bodyToks (defs.take snap)) stack defs
            rw [hc] at ht
            simp only at ht
            obtain ⟨t2, ht2⟩ := ih (.body (j' + 1) bodyToks snap) s' d'
            refine ⟨t ++ t2, ?_⟩
            rw [← List.append_assoc, ht]
            exact ht2
      · exact ⟨[], by simp⟩
    | top i input =>
      simp only [run, runStep]
      split
      · split
        · rename_i i' s' d' f hc
          obtain ⟨t, ht⟩ := ih (.char i input defs) stack defs
          rw [hc] at ht
          exact ⟨t, by simpa using ht⟩
        · rename_i i' s' d' hc
          obtain ⟨t, ht⟩ := ih (.char i input defs) stack defs
          rw [hc] at ht
          simp only at ht
          obtain ⟨t2, ht2⟩ := ih (.top (i' + 1) input) s' d'
          refine ⟨t ++ t2, ?_⟩
          rw [← List.append_assoc, ht]
          exact ht2
      · exact ⟨[], by simp⟩

/-- The incoming dictionary length never shrinks. -/
theorem run_defs_le (fuel : Nat) (c : Call) (stack : Stack)
    (defs : List Variable) :
    defs.length ≤ (run fuel c stack defs).2.2.1.length := by
  obtain ⟨t, ht⟩ := run_defs_extend fuel c stack defs
  rw [← ht]
  simp

/-- The dictionary invariant is preserved by every evaluator step. -/
theorem run_goodDefs (fuel : Nat) :
    ∀ (c : Call) (stack : Stack) (defs : List Variable),
      GoodDefs defs → GoodDefs (run fuel c stack defs).2.2.1 := by
  induction fuel with
  | zero => intro c stack defs hg; simpa [run] using hg
  | succ fuel ih =>
    intro c stack defs hg
    cases c with
    | char i input window =>
      simp only [run, runStep]
      split
      · simpa using hg
      · split
        · simpa using hg
        · simpa using hg
        · split
          · simpa using hg
          · split
            · simpa using hg
            · rename_i nm hname
              simpa using goodDefs_push defs (toUpperStr nm) (defnBody input i) hg
        · rename_i v hin
          have h1 := ih (.body 0 v.definition v.definitions_index) stack defs hg
          simpa using h1
        · simpa using hg
    | body j bodyToks snap =>
      simp only [run, runStep]
      split
      · split
        · simpa using hg
        · split
          · rename_i j' s' d' f hc
            have h1 := ih (.char j bodyToks (defs.take snap)) stack defs hg
            rw [hc] at h1
            simpa using h1
          · rename_i j' s' d' hc
            have h1 := ih (.char j bodyToks (defs.take snap)) stack defs hg
            rw [hc] at h1
            simp only at h1
            exact ih (.body (j' + 1) bodyToks snap) s' d' h1
      · simpa using hg
    | top i input =>
      simp only [run, runStep]
      split
      · split
        · rename_i i' s' d' f hc
          have h1 := ih (.char i input defs) stack defs hg
          rw [hc] at h1
          simpa using h1
        · rename_i i' s' d' hc
          have h1 := ih (.char i input defs) stack defs hg
          rw [hc] at h1
          simp only at h1
          exact ih (.top (i' + 1) input) s' d' h1
      · simpa using hg

/-- Congruence of one evaluator step: if two interpretations of the recursive
calls agree wherever the second does not run out of fuel, so do the steps. -/
theorem runStep_congr
    (f g : Call -> Stack -> List Variable -> Nat × Stack × List Variable × Option Fail)
    (h : ∀ c stack defs, f c stack defs = g c stack defs ∨
      (g c stack defs).2.2.2 = some .fuelOut) :
    ∀ c stack defs, runStep f c stack defs = runStep g c stack defs ∨
      (runStep g c stack defs).2.2.2 = some .fuelOut := by
  intro c stack defs
  cases c with
  | char i input window =>
    simp only [runStep]
    split
    · left; rfl
    · split
      · left; rfl
      · left; rfl
      · left; rfl
      · rename_i v hin
        rcases h (.body 0 v.definition v.definitions_index) stack defs with hEq | hFo
        · rw [hEq]; left; rfl
        · right; simpa using hFo
      · left; rfl
  | body j bodyToks snap =>
    simp only [runStep]
    split
    · split
      · left; rfl
      · rcases h (.char j bodyToks (defs.take snap)) stack defs with hEq | hFo
        · rw [hEq]
          rcases hc : g (.char j bodyToks (defs.take snap)) stack defs
            with ⟨j', s', d', r⟩
          cases r with
          | some f1 => left; rfl
          | none =>
            rcases h (.body (j' + 1) bodyToks snap) s' d' with hEq2 | hFo2
            · exact Or.inl (by exact congrArg (fun z => z) hEq2)
            · exact Or.inr hFo2
        · rcases hc : g (.char j bodyToks (defs.take snap)) stack defs
            with ⟨j', s', d', r⟩
          rw [hc] at hFo
          simp only at hFo
          subst hFo
          right; rfl
    · left; rfl
  | top i input =>
    simp only [runStep]
    split
    · rcases h (.char i input defs) stack defs with hEq | hFo
      · rw [hEq]
        rcases hc : g (.char i input defs) stack defs with ⟨i', s', d', r⟩
        cases r with
        | some f1 => left; rfl
        | none =>
          rcases h (.top (i' + 1) input) s' d' with hEq2 | hFo2
          · exact Or.inl (by exact congrArg (fun z => z) hEq2)
          · exact Or.inr hFo2
      · rcases hc : g (.char i input defs) stack defs with ⟨i', s', d', r⟩
        rw [hc] at hFo
        simp only at hFo
        subst hFo
        right; rfl
    · left; rfl

/-- One extra unit of fuel changes nothing unless the run ran out of fuel. -/
theorem run_mono_or (fuel : Nat) :
    ∀ (c : Call) (stack : Stack) (defs : List Variable),
      run (fuel + 1) c stack defs = run fuel c stack defs ∨
      (run fuel c stack defs).2.2.2 = some .fuelOut := by
  induction fuel with
  | zero => intro c stack defs; right; simp [run]
  | succ fuel ih =>
    intro c stack defs
    have h2 := runStep_congr (run (fuel + 1)) (run fuel) ih c stack defs
    simpa only [run] using h2

/-- Results are stable once the fuel is sufficient. -/
theorem run_mono_le {fuel fuel' : Nat} (hle : fuel ≤ fuel') (c : Call)
    (stack : Stack) (defs : List Variable)
    (h : (run fuel c stack defs).2.2.2 ≠ some .fuelOut) :
    run fuel' c stack defs = run fuel c stack defs := by
  induction hle with
  | refl => rfl
  | step hk ih =>
    rename_i k
    rcases run_mono_or k c stack defs with hEq | hFo
    · exact hEq.trans ih
    · rw [ih] at hFo; exact absurd hFo h

/-- The function `Operator::operate` never panics: the unwrapped pops all happen after
the depth check has passed. -/
theorem operate_no_crash (op : Operator) (s : Stack) :
    (op.operate s).2 ≠ some .crash := by
  rcases s with _ | ⟨a, s⟩
  · cases op <;> simp [Operator.operate]
  rcases s with _ | ⟨b, rest⟩
  · cases op <;> simp [Operator.operate]
  cases op <;> simp only [Operator.operate] <;> (repeat' split) <;> simp

/-- If classification resolves a token to a user word, that word is an entry
of the visible window. -/
theorem evaluate_input_var_mem (val : String) (defs : List Variable)
    (v : Variable) (h : evaluate_input val defs = .Var v) : v ∈ defs := by
  unfold evaluate_input at h
  split at h
  · exact absurd h (by simp)
  · split at h
    · rename_i v' hf
      injection h with h2
      subst h2
      have hm := List.mem_of_find?_eq_some hf
      rwa [List.mem_reverse] at hm
    · split at h
      · exact absurd h (by simp)
      · split at h
        · exact absurd h (by simp)
        · exact absurd h (by simp)

/-- A non-empty definition body forces the name index to be in bounds. -/
theorem defnBody_pos_lt (input : List String) (i : Nat)
    (h : 1 ≤ (defnBody input i).length) : i + 2 < input.length := by
  unfold defnBody at h
  have h2 := (List.takeWhile_sublist (fun x => x != ";")
    (l := input.drop (i + 2))).length_le
  have h3 : (input.drop (i + 2)).length = input.length - (i + 2) :=
    List.length_drop _ _
  omega

/-- The evaluator never panics: every `unwrap` and the `split_at` are in
bounds for calls satisfying `CallOk` over a `GoodDefs` dictionary. -/
theorem run_no_crash (fuel : Nat) :
    ∀ (c : Call) (stack : Stack) (defs : List Variable),
      GoodDefs defs → CallOk c defs →
      (run fuel c stack defs).2.2.2 ≠ some .crash := by
  induction fuel with
  | zero => intro c stack defs _ _; simp [run]
  | succ fuel ih =>
    intro c stack defs hg hok
    cases c with
    | char i input window =>
      obtain ⟨hi, w, hw, hwin⟩ := hok
      simp only [run, runStep]
      split
      · rename_i hget
        rw [List.getElem?_eq_none_iff] at hget
        omega
      · rename_i tok hget
        split
        · simp
        · rename_i op hin
          simpa using operate_no_crash op stack
        · split
          · simp
          · rename_i hnotbad
            split
            · rename_i hname
              exfalso
              unfold defnInvalid at hnotbad
              push_neg at hnotbad
              have hlen : 1 ≤ (defnBody input i).length := by omega
              have h2 := defnBody_pos_lt input i hlen
              rw [List.getElem?_eq_none_iff] at hname
              omega
            · simp
        · rename_i v hin
          have hv : v ∈ window := evaluate_input_var_mem tok window v hin
          subst hwin
          have hidx := mem_take_idx_lt defs w v hg hv
          have hlen : (defs.take w).length ≤ defs.length :=
            (List.take_sublist w defs).length_le
          have h1 := ih (.body 0 v.definition v.definitions_index) stack defs hg
            (by simp only [CallOk]; omega)
          simpa using h1
        · simp
    | body j bodyToks snap =>
      simp only [CallOk] at hok
      simp only [run, runStep]
      split
      · rename_i hj
        split
        · rename_i hcr
          exfalso; omega
        · rename_i hcr
          split
          · rename_i j' s' d' f hc
            have h1 := ih (.char j bodyToks (defs.take snap)) stack defs hg
              ⟨hj, snap, hok, rfl⟩
            rw [hc] at h1
            simpa using h1
          · rename_i j' s' d' hc
            have hg2 := run_goodDefs fuel (.char j bodyToks (defs.take snap)) stack defs hg
            rw [hc] at hg2
            simp only at hg2
            have hlen := run_defs_le fuel (.char j bodyToks (defs.take snap)) stack defs
            rw [hc] at hlen
            simp only at hlen
            exact ih (.body (j' + 1) bodyToks snap) s' d' hg2
              (by simp only [CallOk]; omega)
      · simp
    | top i input =>
      simp only [run, runStep]
      split
      · rename_i hi
        split
        · rename_i i' s' d' f hc
          have h1 := ih (.char i input defs) stack defs hg
            ⟨hi, defs.length, le_refl _, (List.take_length defs).symm⟩
          rw [hc] at h1
          simpa using h1
        · rename_i i' s' d' hc
          have hg2 := run_goodDefs fuel (.char i input defs) stack defs hg
          rw [hc] at hg2
          simp only at hg2
          exact ih (.top (i' + 1) input) s' d' hg2 trivial
      · simp

/-- The function `Operator::operate` is not fuel-indexed, so it cannot run out of fuel. -/
theorem operate_no_fuelOut (op : Operator) (s : Stack) :
    (op.operate s).2 ≠ some .fuelOut := by
  rcases s with _ | ⟨a, s⟩
  · cases op <;> simp [Operator.operate]
  rcases s with _ | ⟨b, rest⟩
  · cases op <;> simp [Operator.operate]
  cases op <;> simp only [Operator.operate] <;> (repeat' split) <;> simp

/-- Termination of the evaluator below a window bound: for every dictionary
satisfying the invariant, every `evaluate_character` call on a `take`-window
of size at most `m`, and every body loop with snapshot bound at most `m`,
some amount of fuel suffices.  The measure is the strictly decreasing size of
the visibility window along nested word invocations. -/
theorem run_exists_window (m : Nat) :
    (∀ (defs : List Variable) (w i : Nat) (input : List String) (stack : Stack),
      GoodDefs defs → (defs.take w).length ≤ m →
      ∃ fuel, (run fuel (.char i input (defs.take w)) stack defs).2.2.2 ≠ some .fuelOut)
    ∧
    (∀ (defs : List Variable) (snap : Nat) (body : List String) (j : Nat) (stack : Stack),
      GoodDefs defs → snap ≤ m →
      ∃ fuel, (run fuel (.body j body snap) stack defs).2.2.2 ≠ some .fuelOut) := by
  induction m using Nat.strong_induction_on with
  | _ m ih =>
    have hchar : ∀ (defs : List Variable) (w i : Nat) (input : List String) (stack : Stack),
        GoodDefs defs → (defs.take w).length ≤ m →
        ∃ fuel, (run fuel (.char i input (defs.take w)) stack defs).2.2.2 ≠ some .fuelOut := by
      intro defs w i input stack hg hm
      rcases hget : input[i]? with _ | tok
      · exact ⟨1, by simp [run, runStep, hget]⟩
      · rcases hin : evaluate_input tok (defs.take w) with n | op | _ | v | _
        · exact ⟨1, by simp [run, runStep, hget, hin]⟩
        · refine ⟨1, ?_⟩
          simp only [run, runStep, hget, hin]
          simpa using operate_no_fuelOut op stack
        · refine ⟨1, ?_⟩
          simp only [run, runStep, hget, hin]
          split
          · simp
          · split <;> simp
        · have hvmem := evaluate_input_var_mem tok (defs.take w) v hin
          have hidx := mem_take_idx_lt defs w v hg hvmem
          obtain ⟨fb, hfb⟩ := (ih v.definitions_index (by omega)).2 defs
            v.definitions_index v.definition 0 stack hg (le_refl _)
          refine ⟨fb + 1, ?_⟩
          simp only [run, runStep, hget, hin]
          simpa using hfb
        · exact ⟨1, by simp [run, runStep, hget, hin]⟩
    refine ⟨hchar, ?_⟩
    intro defs snap body j stack hg hsnap
    have H : ∀ (n j : Nat) (stack : Stack) (defs : List Variable),
        GoodDefs defs → body.length - j ≤ n →
        ∃ fuel, (run fuel (.body j body snap) stack defs).2.2.2 ≠ some .fuelOut := by
      intro n
      induction n with
      | zero =>
        intro j stack defs hg2 hle
        refine ⟨1, ?_⟩
        have hj : ¬ j < body.length := by omega
        simp [run, runStep, hj]
      | succ n ihn =>
        intro j stack defs hg2 hle
        by_cases hj : j < body.length
        · by_cases hcr : defs.length < snap
          · exact ⟨1, by simp [run, runStep, hj, hcr]⟩
          · have hwb : (defs.take snap).length ≤ m := by
              have := List.length_take_le snap defs
              omega
            obtain ⟨f1, hf1⟩ := hchar defs snap j body stack hg2 hwb
            rcases hc : run f1 (.char j body (defs.take snap)) stack defs
              with ⟨j', s', d', r⟩
            rw [hc] at hf1
            simp only at hf1
            have hg3 : GoodDefs d' := by
              have h4 := run_goodDefs f1 (.char j body (defs.take snap)) stack defs hg2
              rw [hc] at h4
              simpa using h4
            cases r with
            | some f =>
              refine ⟨f1 + 1, ?_⟩
              simp only [run, runStep, if_pos hj, if_neg hcr, hc]
              simpa using hf1
            | none =>
              have hj' : j ≤ j' := by
                have h5 := run_idx_le f1 j body (defs.take snap) stack defs
                rw [hc] at h5
                simpa using h5
              obtain ⟨f2, hf2⟩ := ihn (j' + 1) s' d' hg3 (by omega)
              refine ⟨max f1 f2 + 1, ?_⟩
              have hc2 : run (max f1 f2) (.char j body (defs.take snap)) stack defs
                  = (j', s', d', none) := by
                rw [run_mono_le (le_max_left f1 f2) _ _ _ (by rw [hc]; simp), hc]
              have hb2 : run (max f1 f2) (.body (j' + 1) body snap) s' d'
                  = run f2 (.body (j' + 1) body snap) s' d' :=
                run_mono_le (le_max_right f1 f2) _ _ _ hf2
              simp only [run, runStep, if_pos hj, if_neg hcr, hc2, hb2]
              exact hf2
        · exact ⟨1, by simp [run, runStep, hj]⟩
    exact H (body.length - j) j stack defs hg (le_refl _)

/-- Termination of the top-level loop of `eval`. -/
theorem run_exists_top :
    ∀ (n i : Nat) (input : List String) (stack : Stack) (defs : List Variable),
      GoodDefs defs → input.length - i ≤ n →
      ∃ fuel, (run fuel (.top i input) stack defs).2.2.2 ≠ some .fuelOut := by
  intro n
  induction n with
  | zero =>
    intro i input stack defs hg hle
    refine ⟨1, ?_⟩
    have hi : ¬ i < input.length := by omega
    simp [run, runStep, hi]
  | succ n ihn =>
    intro i input stack defs hg hle
    by_cases hi : i < input.length
    · obtain ⟨f1, hf1⟩ := (run_exists_window (defs.take defs.length).length).1 defs
        defs.length i input stack hg (le_refl _)
      rw [List.take_length] at hf1
      rcases hc : run f1 (.char i input defs) stack defs with ⟨i', s', d', r⟩
      rw [hc] at hf1
      simp only at hf1
      have hg3 : GoodDefs d' := by
        have h4 := run_goodDefs f1 (.char i input defs) stack defs hg
        rw [hc] at h4
        simpa using h4
      cases r with
      | some f =>
        refine ⟨f1 + 1, ?_⟩
        simp only [run, runStep, if_pos hi, hc]
        simpa using hf1
      | none =>
        have hi' : i ≤ i' := by
          have h5 := run_idx_le f1 i input defs stack defs
          rw [hc] at h5
          simpa using h5
        obtain ⟨f2, hf2⟩ := ihn (i' + 1) input s' d' hg3 (by omega)
        refine ⟨max f1 f2 + 1, ?_⟩
        have hc2 : run (max f1 f2) (.char i input defs) stack defs
            = (i', s', d', none) := by
          rw [run_mono_le (le_max_left f1 f2) _ _ _ (by rw [hc]; simp), hc]
        have hb2 : run (max f1 f2) (.top (i' + 1) input) s' d'
            = run f2 (.top (i' + 1) input) s' d' :=
          run_mono_le (le_max_right f1 f2) _ _ _ hf2
        simp only [run, runStep, if_pos hi, hc2, hb2]
        exact hf2
    · exact ⟨1, by simp [run, runStep, hi]⟩

/-- A dictionary extension leaves every `take`-prefix within the original
length unchanged. -/
theorem take_of_extend (D E : List Variable) (k : Nat) (hk : k ≤ D.length)
    (h : ∃ t, D ++ t = E) : E.take k = D.take k := by
  obtain ⟨t, ht⟩ := h
  rw [← ht, List.take_append_of_le_length hk]

/-- Word-body execution only depends on the dictionary prefix below the
snapshot bound: two dictionaries that agree on their first `k` entries give
the same traversal index, the same working stack and the same result for
every `evaluate_character` call whose window only references entries below
`k`, and for every body loop whose snapshot bound is at most `k`.  (The
dictionaries themselves may diverge: definitions appended during execution
record different `definitions_index` values.) -/
theorem run_agree (fuel : Nat) :
    (∀ (i : Nat) (input : List String) (win : List Variable) (stack : Stack)
       (D1 D2 : List Variable) (k : Nat),
      GoodDefs D1 → GoodDefs D2 →
      k ≤ D1.length → k ≤ D2.length → D1.take k = D2.take k →
      (∀ v ∈ win, v.definitions_index ≤ k) →
      ((run fuel (.char i input win) stack D1).1
          = (run fuel (.char i input win) stack D2).1 ∧
       (run fuel (.char i input win) stack D1).2.1
          = (run fuel (.char i input win) stack D2).2.1 ∧
       (run fuel (.char i input win) stack D1).2.2.2
          = (run fuel (.char i input win) stack D2).2.2.2))
    ∧
    (∀ (j : Nat) (body : List String) (snap : Nat) (stack : Stack)
       (D1 D2 : List Variable) (k : Nat),
      GoodDefs D1 → GoodDefs D2 →
      snap ≤ k → k ≤ D1.length → k ≤ D2.length → D1.take k = D2.take k →
      ((run fuel (.body j body snap) stack D1).1
          = (run fuel (.body j body snap) stack D2).1 ∧
       (run fuel (.body j body snap) stack D1).2.1
          = (run fuel (.body j body snap) stack D2).2.1 ∧
       (run fuel (.body j body snap) stack D1).2.2.2
          = (run fuel (.body j body snap) stack D2).2.2.2)) := by
  induction fuel with
  | zero =>
    constructor
    · intro i input win stack D1 D2 k _ _ _ _ _ _
      simp [run]
    · intro j body snap stack D1 D2 k _ _ _ _ _ _
      simp [run]
  | succ fuel ih =>
    constructor
    · intro i input win stack D1 D2 k hg1 hg2 hk1 hk2 hagree hwin
      simp only [run, runStep]
      split
      · simp
      · rename_i tok hget
        split
        · simp
        · simp
        · split
          · simp
          · split <;> simp
        · rename_i v hin
          have hvk : v.definitions_index ≤ k :=
            hwin v (evaluate_input_var_mem tok win v hin)
          have hb := ih.2 0 v.definition v.definitions_index stack D1 D2 k
            hg1 hg2 hvk hk1 hk2 hagree
          exact ⟨rfl, hb.2.1, hb.2.2⟩
        · simp
    · intro j body snap stack D1 D2 k hg1 hg2 hsk hk1 hk2 hagree
      simp only [run, runStep]
      split
      · rename_i hj
        have hcr1 : ¬ D1.length < snap := by omega
        have hcr2 : ¬ D2.length < snap := by omega
        simp only [if_neg hcr1, if_neg hcr2]
        have hw12 : D1.take snap = D2.take snap := by
          have h1 : (D1.take k).take snap = D1.take snap := by
            rw [List.take_take]
            congr 1
            omega
          have h2 : (D2.take k).take snap = D2.take snap := by
            rw [List.take_take]
            congr 1
            omega
          rw [← h1, ← h2, hagree]
        have hwinb : ∀ v ∈ D1.take snap, v.definitions_index ≤ k := by
          intro v hv
          have := mem_take_idx_lt D1 snap v hg1 hv
          have := List.length_take_le snap D1
          omega
        have hcc := ih.1 j body (D1.take snap) stack D1 D2 k hg1 hg2 hk1 hk2 hagree hwinb
        rw [← hw12]
        rcases h1c : run fuel (.char j body (D1.take snap)) stack D1
          with ⟨j1, s1, d1, r1⟩
        rcases h2c : run fuel (.char j body (D1.take snap)) stack D2
          with ⟨j2, s2, d2, r2⟩
        rw [h1c, h2c] at hcc
        simp only at hcc
        obtain ⟨hje, hse, hre⟩ := hcc
        subst hje
        subst hse
        subst hre
        have hgd1 : GoodDefs d1 := by
          have h4 := run_goodDefs fuel (.char j body (D1.take snap)) stack D1 hg1
          rw [h1c] at h4
          simpa using h4
        have hgd2 : GoodDefs d2 := by
          have h4 := run_goodDefs fuel (.char j body (D1.take snap)) stack D2 hg2
          rw [h2c] at h4
          simpa using h4
        have hl1 : k ≤ d1.length := by
          have h4 := run_defs_le fuel (.char j body (D1.take snap)) stack D1
          rw [h1c] at h4
          simp only at h4
          omega
        have hl2 : k ≤ d2.length := by
          have h4 := run_defs_le fuel (.char j body (D1.take snap)) stack D2
          rw [h2c] at h4
          simp only at h4
          omega
        have hag : d1.take k = d2.take k := by
          have e1 := run_defs_extend fuel (.char j body (D1.take snap)) stack D1
          rw [h1c] at e1
          simp only at e1
          have e2 := run_defs_extend fuel (.char j body (D1.take snap)) stack D2
          rw [h2c] at e2
          simp only at e2
          rw [take_of_extend D1 d1 k hk1 e1, take_of_extend D2 d2 k hk2 e2, hagree]
        cases r1 with
        | some f => simp
        | none =>
          have hb := ih.2 (j1 + 1) body snap s1 d1 d2 k hgd1 hgd2 hsk hl1 hl2 hag
          exact hb
      · simp

/-- Evaluation preserves the dictionary invariant. -/
theorem eval_goodDefs (fuel : Nat) (f : Forth) (input : String)
    (hg : GoodDefs f.definitions) :
    GoodDefs (Forth.eval fuel f input).1.definitions := by
  have h4 := run_goodDefs fuel (.top 0 (splitWhitespace input)) [] f.definitions hg
  rcases hr : run fuel (.top 0 (splitWhitespace input)) [] f.definitions
    with ⟨a, s, d, r⟩
  rw [hr] at h4
  simp only at h4
  cases r <;> simp [Forth.eval, hr] <;> exact h4

/-- Every reachable instance satisfies the dictionary invariant. -/
theorem reachable_goodDefs (f : Forth) (h : Reachable f) :
    GoodDefs f.definitions := by
  induction h with
  | base => decide
  | step f fuel input hf ihf => exact eval_goodDefs fuel f input ihf

/-- Evaluation only ever appends to the dictionary. -/
theorem eval_defs_extend (fuel : Nat) (f : Forth) (input : String) :
    ∃ t, f.definitions ++ t = (Forth.eval fuel f input).1.definitions := by
  obtain ⟨t, ht⟩ := run_defs_extend fuel (.top 0 (splitWhitespace input)) [] f.definitions
  rcases hr : run fuel (.top 0 (splitWhitespace input)) [] f.definitions
    with ⟨a, s, d, r⟩
  rw [hr] at ht
  simp only at ht
  cases r <;> exact ⟨t, by simpa [Forth.eval, hr] using ht⟩

-- Sanity checks of the embedding on the test programs of the spec.
example : (Forth.eval 10 Forth.new "3 4 -").1.stackView = [-1] := by decide
example : (Forth.eval 10 Forth.new "4 5 DUP").1.stackView = [4, 5, 5] := by decide
example : (Forth.eval 10 Forth.new "1 2 SWAP").1.stackView = [2, 1] := by decide
example : (Forth.eval 10 Forth.new "1 2 OVER").1.stackView = [1, 2, 1] := by decide
example : (Forth.eval 10 Forth.new "1 0 /").2 = some (.err .DivisionByZero) := by decide
example : (Forth.eval 10 Forth.new "1 +").2 = some (.err .StackUnderflow) := by decide
example : (Forth.eval 10 Forth.new "foo").2 = some (.err .UnknownWord) := by decide
example : (Forth.eval 20 Forth.new ": dup-twice dup dup ; 1 dup-twice").1.stackView
    = [1, 1, 1] := by decide
example : (Forth.eval 10 Forth.new ": bad 1 2").2 = some (.err .InvalidWord) := by decide
example : (Forth.eval 10 Forth.new ": bad ;").2 = some (.err .InvalidWord) := by decide
example : (Forth.eval 10 Forth.new ": 1foo dup ;").2 = some (.err .InvalidWord) := by decide

/- ------------------------------------------------------------------ -/
/- Claim theorems                                                      -/
/- ------------------------------------------------------------------ -/

/-- C1 (counterexample): the claim that a failed `eval` leaves the dictionary
unchanged is false: `eval ": F 1 ; X"` on a fresh instance returns
`UnknownWord`, yet the definition `F` appended before the failing token
persists in the instance's dictionary. -/
theorem claim_C1_counterexample :
    (Forth.eval 10 Forth.new ": F 1 ; X").2 = some (.err .UnknownWord) ∧
    (Forth.eval 10 Forth.new ": F 1 ; X").1.definitions ≠ Forth.new.definitions := by
  decide

/-- C1 (amended): when `eval` returns an error, the instance's exposed stack
is unchanged (the working stack is only committed on success), but the
dictionary is NOT rolled back: it is an append-extension of the dictionary
before the call, retaining any definitions appended before the error. -/
theorem claim_C1_error_no_stack_commit (fuel : Nat) (f : Forth) (input : String)
    (e : Error) (h : (Forth.eval fuel f input).2 = some (.err e)) :
    (Forth.eval fuel f input).1.stack = f.stack ∧
    ∃ t, f.definitions ++ t = (Forth.eval fuel f input).1.definitions := by
  refine ⟨?_, eval_defs_extend fuel f input⟩
  rcases hr : run fuel (.top 0 (splitWhitespace input)) [] f.definitions
    with ⟨a, s, d, r⟩
  cases r with
  | none => simp [Forth.eval, hr] at h
  | some fl => simp [Forth.eval, hr]

/-- C1 witness at a concrete failing input. -/
theorem claim_C1_witness :
    (Forth.eval 10 Forth.new ": F 1 ; X").1.stack = Forth.new.stack ∧
    ∃ t, Forth.new.definitions ++ t
      = (Forth.eval 10 Forth.new ": F 1 ; X").1.definitions :=
  claim_C1_error_no_stack_commit 10 Forth.new ": F 1 ; X" .UnknownWord (by decide)

/-- C2 (confirmed): word-body execution sees exactly the dictionary prefix
below the word's `snapshot_index`, so it is unaffected (same stack, same
result) by any definitions appended after the word was defined — in
particular by later redefinitions of names its body references — while a
direct invocation of a redefined name uses the newest definition.  The
concrete programs: after `: B 1 ; : A B ; : B 2 ;`, `A` leaves `[1]` (the
original `B`) and `B` leaves `[2]` (the new one). -/
theorem claim_C2_redefinition_independence :
    (∀ (fuel : Nat) (v : Variable) (defs ext : List Variable) (stack : Stack),
      GoodDefs defs → GoodDefs (defs ++ ext) →
      v.definitions_index ≤ defs.length →
      (run fuel (.body 0 v.definition v.definitions_index) stack defs).2.1
        = (run fuel (.body 0 v.definition v.definitions_index) stack (defs ++ ext)).2.1 ∧
      (run fuel (.body 0 v.definition v.definitions_index) stack defs).2.2.2
        = (run fuel (.body 0 v.definition v.definitions_index) stack (defs ++ ext)).2.2.2)
    ∧ (Forth.eval 30 Forth.new ": B 1 ; : A B ; : B 2 ; A").1.stack = [1]
    ∧ (Forth.eval 30 Forth.new ": B 1 ; : A B ; : B 2 ; A").2 = none
    ∧ (Forth.eval 30 Forth.new ": B 1 ; : A B ; : B 2 ; B").1.stack = [2]
    ∧ (Forth.eval 30 Forth.new ": B 1 ; : A B ; : B 2 ; B").2 = none := by
  refine ⟨?_, by decide, by decide, by decide, by decide⟩
  intro fuel v defs ext stack hg1 hg2 hvk
  have hag : defs.take v.definitions_index
      = (defs ++ ext).take v.definitions_index :=
    (List.take_append_of_le_length hvk).symm
  have hlen2 : v.definitions_index ≤ (defs ++ ext).length := by
    simp only [List.length_append]
    omega
  have h := (run_agree fuel).2 0 v.definition v.definitions_index stack defs
    (defs ++ ext) v.definitions_index hg1 hg2 (le_refl _) hvk hlen2 hag
  exact ⟨h.2.1, h.2.2⟩

/-- C2 witness: executing the body of `A` (snapshot 1) on the two-entry
dictionary and on its extension with the redefined `B` gives the same stack
and result. -/
theorem claim_C2_witness :
    (run 10 (.body 0 (Variable.mk "A" ["B"] 1).definition
      (Variable.mk "A" ["B"] 1).definitions_index) []
      [⟨"B", ["1"], 0⟩, ⟨"A", ["B"], 1⟩]).2.1
      = (run 10 (.body 0 (Variable.mk "A" ["B"] 1).definition
        (Variable.mk "A" ["B"] 1).definitions_index) []
        ([⟨"B", ["1"], 0⟩, ⟨"A", ["B"], 1⟩] ++ [⟨"B", ["2"], 2⟩])).2.1 ∧
    (run 10 (.body 0 (Variable.mk "A" ["B"] 1).definition
      (Variable.mk "A" ["B"] 1).definitions_index) []
      [⟨"B", ["1"], 0⟩, ⟨"A", ["B"], 1⟩]).2.2.2
      = (run 10 (.body 0 (Variable.mk "A" ["B"] 1).definition
        (Variable.mk "A" ["B"] 1).definitions_index) []
        ([⟨"B", ["1"], 0⟩, ⟨"A", ["B"], 1⟩] ++ [⟨"B", ["2"], 2⟩])).2.2.2 :=
  claim_C2_redefinition_independence.1 10 ⟨"A", ["B"], 1⟩
    [⟨"B", ["1"], 0⟩, ⟨"A", ["B"], 1⟩] [⟨"B", ["2"], 2⟩] []
    (by decide) (by decide) (by decide)

/-- C3 (counterexample): the claim that a `:` with no later `;` fails is
false: in `: a 1 ; : f 1 2` the second `:` has no subsequent `;`, but the
terminator check scans the whole token stream and finds the earlier `;`, so
`eval` succeeds and commits the malformed definition `F`. -/
theorem claim_C3_counterexample :
    (Forth.eval 10 Forth.new ": a 1 ; : f 1 2").2 = none ∧
    (Forth.eval 10 Forth.new ": a 1 ; : f 1 2").1.definitions.length = 2 := by
  decide

/-- C3 (amended): reaching a `:` token fails with InvalidWord exactly when no
`;` exists anywhere in the full token stream (not merely after the `:`), or
the body between the name and the next `;` is empty, or the name token is
digit-led; otherwise the definition is accepted, appended with
`snapshot_index` equal to the current dictionary length, and the index skips
the whole `: name body` span. -/
theorem claim_C3_defn_branch (fuel : Nat) (i : Nat) (input : List String)
    (stack : Stack) (win defs : List Variable)
    (hget : input[i]? = some ":") :
    (defnInvalid input i →
      run (fuel + 1) (.char i input win) stack defs
        = (i, stack, defs, some (.err .InvalidWord))) ∧
    ((¬ defnInvalid input i) → ∀ name, input[i + 1]? = some name →
      run (fuel + 1) (.char i input win) stack defs
        = (i + (defnBody input i).length + 2, stack,
            defs ++ [⟨toUpperStr name, defnBody input i, defs.length⟩],
            none)) ∧
    ((¬ defnInvalid input i) → input[i + 1]?.isSome) := by
  have hdef : evaluate_input ":" win = .Definition := by simp [evaluate_input]
  have hbound : (¬ defnInvalid input i) → i + 2 < input.length := by
    intro hok
    have hlen : 1 ≤ (defnBody input i).length := by
      unfold defnInvalid at hok
      push_neg at hok
      omega
    exact defnBody_pos_lt input i hlen
  refine ⟨?_, ?_, ?_⟩
  · intro hbad
    simp [run, runStep, hget, hdef, hbad]
  · intro hok name hname
    simp [run, runStep, hget, hdef, hok, hname]
  · intro hok
    have := hbound hok
    rw [List.getElem?_eq_getElem (by omega)]
    rfl

/-- C3 witness: a well-formed definition at the top of `[":", "x", "1", ";"]`
is accepted with the expected entry and index advance. -/
theorem claim_C3_witness :
    run 1 (.char 0 [":", "x", "1", ";"] []) [] []
      = (3, [], [⟨"X", ["1"], 0⟩], none) :=
  (claim_C3_defn_branch 0 0 [":", "x", "1", ";"] [] [] [] (by decide)).2.1
    (by decide) "x" (by decide)

/-- C4 (counterexample): the claim that a self-referencing body name resolves
only as UnknownWord or an earlier definition is false when the name collides
with a built-in: after `: swap swap ;`, invoking `swap` resolves the body
token `swap` to the BUILT-IN operator (the snapshot window is empty), so
`": swap swap ; 1 2 swap"` succeeds and swaps the operands instead of
failing with UnknownWord. -/
theorem claim_C4_counterexample :
    (Forth.eval 20 Forth.new ": swap swap ; 1 2 swap").2 = none ∧
    (Forth.eval 20 Forth.new ": swap swap ; 1 2 swap").1.stackView = [2, 1] := by
  decide

/-- C4 (amended): in every reachable instance, whenever a body token of the
word stored at position `p` resolves to a user word, the binding is an entry
strictly below that word's `snapshot_index` (hence strictly below `p`): a
word never binds to its own definition or to any definition at or after its
snapshot index.  (When the window lookup fails, the token falls through to
built-in, numeric, or UnknownWord classification.) -/
theorem claim_C4_no_self_binding (f : Forth) (hf : Reachable f)
    (p : Nat) (v : Variable) (hpv : f.definitions[p]? = some v)
    (t : String) (v' : Variable)
    (hres : evaluate_input t (f.definitions.take v.definitions_index) = .Var v') :
    v'.word = toUpperStr t ∧
    ∃ q, f.definitions[q]? = some v' ∧ q < v.definitions_index ∧ q < p := by
  have hg := reachable_goodDefs f hf
  obtain ⟨hp, hgetv⟩ := List.getElem?_eq_some_iff.mp hpv
  have hkp : v.definitions_index ≤ p := by
    have h1 := hg p hp
    simp only [List.get_eq_getElem] at h1
    rw [hgetv] at h1
    exact h1
  have hvmem : v' ∈ f.definitions.take v.definitions_index :=
    evaluate_input_var_mem t _ v' hres
  have hword : v'.word = toUpperStr t := by
    unfold evaluate_input at hres
    split at hres
    · exact absurd hres (by simp)
    · split at hres
      · rename_i v2 hf2
        injection hres with h2
        subst h2
        have h3 := List.find?_some hf2
        simpa using h3
      · split at hres
        · exact absurd hres (by simp)
        · split at hres
          · exact absurd hres (by simp)
          · exact absurd hres (by simp)
  obtain ⟨q, hq, he⟩ := List.mem_iff_getElem.mp hvmem
  have hqk : q < v.definitions_index := by
    have h5 := List.length_take_le v.definitions_index f.definitions
    omega
  have hql : q < f.definitions.length := by
    have h5 := (List.take_sublist v.definitions_index f.definitions).length_le
    omega
  simp only [List.getElem_take] at he
  refine ⟨hword, q, ?_, hqk, by omega⟩
  rw [List.getElem?_eq_getElem hql, he]

/-- C4 witness: in the reachable instance built by `: B 1 ; : A B ;`, the
body token `B` of `A` (stored at position 1, snapshot 1) binds to the entry
at position 0, not to anything at or after the snapshot. -/
theorem claim_C4_witness :
    (⟨"B", ["1"], 0⟩ : Variable).word = toUpperStr "B" ∧
    ∃ q, (Forth.eval 20 Forth.new ": B 1 ; : A B ;").1.definitions[q]?
        = some ⟨"B", ["1"], 0⟩ ∧
      q < (Variable.mk "A" ["B"] 1).definitions_index ∧ q < 1 :=
  claim_C4_no_self_binding (Forth.eval 20 Forth.new ": B 1 ; : A B ;").1
    (Reachable.step Forth.new 20 ": B 1 ; : A B ;" Reachable.base)
    1 ⟨"A", ["B"], 1⟩ (by decide) "B" ⟨"B", ["1"], 0⟩ (by decide)

/-- C5 (counterexample): the claim that a failed `/` leaves the stack
unchanged is false: on working stack `[5, 0]` (top `0`), `/` returns
DivisionByZero but has already popped both operands. -/
theorem claim_C5_counterexample :
    (Operator.operate .div (0 :: 5 :: [])).2 = some (.err .DivisionByZero) ∧
    (Operator.operate .div (0 :: 5 :: [])).1 ≠ (0 :: 5 :: []) := by
  decide

/-- C5 (amended): on any working stack of depth at least 2 whose top is `0`,
`/` fails with DivisionByZero with the two operands already popped: the
resulting stack is the original minus its top two values (the source pops
`a` and `b` before the zero test).  This mutation is confined to the working
stack, which `eval` discards on failure. -/
theorem claim_C5_div_by_zero_pops (b : Int) (rest : Stack) :
    Operator.operate .div (0 :: b :: rest) = (rest, some (.err .DivisionByZero)) := by
  simp [Operator.operate]

/-- C6 (confirmed): each built-in operator, applied to a working stack
shallower than its required depth (2 for `+ - * / SWAP OVER`, 1 for
`DUP DROP`), fails with StackUnderflow and returns the stack exactly
unchanged: the depth check precedes every pop. -/
theorem claim_C6_underflow (op : Operator) (s : Stack)
    (h : s.length < requiredDepth op) :
    op.operate s = (s, some (.err .StackUnderflow)) := by
  cases op <;> rcases s with _ | ⟨a, _ | ⟨b, t⟩⟩ <;>
    simp [requiredDepth] at h ⊢ <;>
    simp [Operator.operate] <;> omega

/-- C6 witness: `+` on the singleton stack `[5]`. -/
theorem claim_C6_witness :
    Operator.operate .add [5] = ([5], some (.err .StackUnderflow)) :=
  claim_C6_underflow .add [5] (by decide)

/-- Wrapping is the identity on in-range values. -/
theorem wrap32_eq_of_inRange (n : Int) (h1 : -2147483648 ≤ n)
    (h2 : n < 2147483648) : wrap32 n = n := by
  unfold wrap32
  rw [Int.emod_eq_of_lt (by omega) (by omega)]
  omega

/-- C7 (confirmed): with top `a` and second `b`, the binary operators push
`a + b`, `b - a`, `b * a`, and (for `a ≠ 0`) the truncating quotient
`b.tdiv a`, whenever the mathematical result is in `i32` range; and
`eval "3 4 -"` succeeds with final stack `[-1]`. -/
theorem claim_C7_binary_operand_order (a b : Int) (rest : Stack) :
    (inRange32 (a + b) →
      Operator.operate .add (a :: b :: rest) = ((a + b) :: rest, none)) ∧
    (inRange32 (b - a) →
      Operator.operate .sub (a :: b :: rest) = ((b - a) :: rest, none)) ∧
    (inRange32 (b * a) →
      Operator.operate .mul (a :: b :: rest) = ((b * a) :: rest, none)) ∧
    (a ≠ 0 → inRange32 (Int.tdiv b a) →
      Operator.operate .div (a :: b :: rest) = (Int.tdiv b a :: rest, none)) ∧
    (Forth.eval 10 Forth.new "3 4 -").1.stack = [-1] ∧
    (Forth.eval 10 Forth.new "3 4 -").2 = none := by
  refine ⟨?_, ?_, ?_, ?_, by decide, by decide⟩
  · intro h
    simp [Operator.operate, wrap32_eq_of_inRange _ h.1 h.2]
  · intro h
    simp [Operator.operate, wrap32_eq_of_inRange _ h.1 h.2]
  · intro h
    simp [Operator.operate, wrap32_eq_of_inRange _ h.1 h.2]
  · intro ha h
    simp [Operator.operate, ha, wrap32_eq_of_inRange _ h.1 h.2]

/-- C7 witness: `3 4 -` at the operator level (`a = 4` on top, `b = 3`)
yields `-1`, and `14 / 4` truncates to `3`. -/
theorem claim_C7_witness :
    Operator.operate .sub (4 :: 3 :: []) = ((3 - 4) :: [], none) ∧
    Operator.operate .div (4 :: 14 :: []) = (Int.tdiv 14 4 :: [], none) :=
  ⟨(claim_C7_binary_operand_order 4 3 []).2.1 (by decide),
   (claim_C7_binary_operand_order 4 14 []).2.2.2.1 (by decide) (by decide)⟩

/-- C8 (confirmed): for every non-`:` token, classification checks user
words first (a successful reverse lookup in the visible dictionary wins
regardless of operator or numeric form), built-in operators second, and
numeric parsing last; concretely, after `: swap dup ;` the token `swap`
invokes the user definition (`dup`), so `": swap dup ; 1 2 swap"` leaves the
exposed stack `[1, 2, 2]`. -/
theorem claim_C8_classification_order :
    (∀ (t : String) (win : List Variable) (v : Variable), t ≠ ":" →
      win.reverse.find? (fun x => x.word == toUpperStr t) = some v →
      evaluate_input t win = .Var v) ∧
    (∀ (t : String) (win : List Variable) (op : Operator), t ≠ ":" →
      win.reverse.find? (fun x => x.word == toUpperStr t) = none →
      opOfString t = some op → evaluate_input t win = .Op op) ∧
    (∀ (t : String) (win : List Variable) (n : Int), t ≠ ":" →
      win.reverse.find? (fun x => x.word == toUpperStr t) = none →
      opOfString t = none → parseI32 t = some n →
      evaluate_input t win = .Number n) ∧
    (Forth.eval 20 Forth.new ": swap dup ; 1 2 swap").1.stackView = [1, 2, 2] ∧
    (Forth.eval 20 Forth.new ": swap dup ; 1 2 swap").2 = none := by
  refine ⟨?_, ?_, ?_, by decide, by decide⟩
  · intro t win v ht hfind
    simp [evaluate_input, ht, hfind]
  · intro t win op ht hfind hop
    simp [evaluate_input, ht, hfind, hop]
  · intro t win n ht hfind hop hp
    simp [evaluate_input, ht, hfind, hop, hp]

/-- C8 witness: the user word `SWAP` shadows the built-in `swap`. -/
theorem claim_C8_witness :
    evaluate_input "swap" [⟨"SWAP", ["dup"], 0⟩]
      = .Var ⟨"SWAP", ["dup"], 0⟩ :=
  claim_C8_classification_order.1 "swap" [⟨"SWAP", ["dup"], 0⟩]
    ⟨"SWAP", ["dup"], 0⟩ (by decide) (by decide)

/-- C9 (counterexample): the claim that instances with equal dictionaries
and different stacks end with the same final stack is false when `eval`
errors: evaluating `"foo"` from stacks `[1]` and `[2]` returns UnknownWord
on both, and each instance retains its own prior stack. -/
theorem claim_C9_counterexample :
    (Forth.mk [1] []).definitions = (Forth.mk [2] []).definitions ∧
    (Forth.eval 10 ⟨[1], []⟩ "foo").2 = (Forth.eval 10 ⟨[2], []⟩ "foo").2 ∧
    (Forth.eval 10 ⟨[1], []⟩ "foo").1.stack
      ≠ (Forth.eval 10 ⟨[2], []⟩ "foo").1.stack := by
  decide

/-- C9 (amended): `eval` computes on a fresh empty working stack, so its
result and dictionary evolution depend only on the input text and the
dictionary; on success the final stacks of two instances with equal
dictionaries coincide, while on error each instance keeps its own prior
stack (the prior stack is retained, not discarded). -/
theorem claim_C9_stack_independence (fuel : Nat) (f1 f2 : Forth)
    (input : String) (hd : f1.definitions = f2.definitions) :
    (Forth.eval fuel f1 input).2 = (Forth.eval fuel f2 input).2 ∧
    (Forth.eval fuel f1 input).1.definitions
      = (Forth.eval fuel f2 input).1.definitions ∧
    ((Forth.eval fuel f1 input).2 = none →
      (Forth.eval fuel f1 input).1.stack = (Forth.eval fuel f2 input).1.stack) ∧
    (∀ fl, (Forth.eval fuel f1 input).2 = some fl →
      (Forth.eval fuel f1 input).1.stack = f1.stack ∧
      (Forth.eval fuel f2 input).1.stack = f2.stack) := by
  rcases hr : run fuel (.top 0 (splitWhitespace input)) [] f1.definitions
    with ⟨a, s, d, r⟩
  have hr2 : run fuel (.top 0 (splitWhitespace input)) [] f2.definitions
      = (a, s, d, r) := by
    rw [← hd]
    exact hr
  cases r <;> simp [Forth.eval, hr, hr2]

/-- C9 witness: instantiated at the two instances of the counterexample. -/
theorem claim_C9_witness :
    (Forth.eval 10 ⟨[1], []⟩ "foo").2 = (Forth.eval 10 ⟨[2], []⟩ "foo").2 ∧
    (Forth.eval 10 ⟨[1], []⟩ "foo").1.definitions
      = (Forth.eval 10 ⟨[2], []⟩ "foo").1.definitions ∧
    ((Forth.eval 10 ⟨[1], []⟩ "foo").2 = none →
      (Forth.eval 10 ⟨[1], []⟩ "foo").1.stack
        = (Forth.eval 10 ⟨[2], []⟩ "foo").1.stack) ∧
    (∀ fl, (Forth.eval 10 ⟨[1], []⟩ "foo").2 = some fl →
      (Forth.eval 10 ⟨[1], []⟩ "foo").1.stack = (Forth.mk [1] []).stack ∧
      (Forth.eval 10 ⟨[2], []⟩ "foo").1.stack = (Forth.mk [2] []).stack) :=
  claim_C9_stack_independence 10 ⟨[1], []⟩ ⟨[2], []⟩ "foo" (by decide)

/-- C10 (confirmed): on every reachable instance and every input, the
embedded `eval` never panics (every `unwrap` and the `split_at` are in
bounds), and terminates: some fuel yields a result that is neither a panic
nor fuel exhaustion — hence, by the type of `Error`, `Ok` or one of the four
error variants — and the result is stable under any larger fuel.  (Per the
claim, `i32` arithmetic is modelled as wrapping two's-complement, `wrap32`.) -/
theorem claim_C10_total (f : Forth) (input : String) (hf : Reachable f) :
    (∀ fuel, (Forth.eval fuel f input).2 ≠ some .crash) ∧
    (∃ fuel, (Forth.eval fuel f input).2 ≠ some .crash ∧
      (Forth.eval fuel f input).2 ≠ some .fuelOut ∧
      ∀ fuel', fuel ≤ fuel' →
        Forth.eval fuel' f input = Forth.eval fuel f input) := by
  have hg := reachable_goodDefs f hf
  have hcr : ∀ fuel, (Forth.eval fuel f input).2 ≠ some .crash := by
    intro fuel
    have h1 := run_no_crash fuel (.top 0 (splitWhitespace input)) []
      f.definitions hg trivial
    rcases hr : run fuel (.top 0 (splitWhitespace input)) [] f.definitions
      with ⟨a, s, d, r⟩
    rw [hr] at h1
    simp only at h1
    cases r <;> simp [Forth.eval, hr] <;> simpa using h1
  refine ⟨hcr, ?_⟩
  obtain ⟨fuel, hfo⟩ := run_exists_top (splitWhitespace input).length 0
    (splitWhitespace input) [] f.definitions hg (by omega)
  refine ⟨fuel, hcr fuel, ?_, ?_⟩
  · rcases hr : run fuel (.top 0 (splitWhitespace input)) [] f.definitions
      with ⟨a, s, d, r⟩
    rw [hr] at hfo
    simp only at hfo
    cases r <;> simp [Forth.eval, hr] <;> simpa using hfo
  · intro fuel' hle
    have heq := run_mono_le hle (.top 0 (splitWhitespace input)) []
      f.definitions hfo
    simp [Forth.eval, heq]

/-- C10 witness: the fresh instance on input `"1 2 +"`. -/
theorem claim_C10_witness :
    (∀ fuel, (Forth.eval fuel Forth.new "1 2 +").2 ≠ some .crash) ∧
    (∃ fuel, (Forth.eval fuel Forth.new "1 2 +").2 ≠ some .crash ∧
      (Forth.eval fuel Forth.new "1 2 +").2 ≠ some .fuelOut ∧
      ∀ fuel', fuel ≤ fuel' →
        Forth.eval fuel' Forth.new "1 2 +" = Forth.eval fuel Forth.new "1 2 +") :=
  claim_C10_total Forth.new "1 2 +" Reachable.base
